import Mathlib

/-!
# Least-loaded scheduler over per-worker SPSC ring buffers (`src/index.c`)

A shallow embedding of `allocator_thread` and `worker_thread`.

* `unsigned long` and `uint64_t` are 64 bits wide (LP64); values are `Nat`
  and every C operation that can wrap is written with an explicit `% 2 ^ 64`.
* The macros `NUM_WORKERS` and `QUEUE_SIZE` are the two fields of `Config`;
  `src` is the configuration of the source file (`4` and `65536`).
* `rand()` is an input of an allocator iteration.
* One loop iteration of a thread is one atomic step; an execution is a
  list of events, each naming the thread that runs its next iteration.
* `cpu_busy_work`, `cpu_relax`, `usleep` and `sleep` change nothing that is
  modelled, and `monitor_thread` only reads, so none of them appears.
* `Sys` adds the three global flags and the position of every thread, for
  the start-up protocol.
-/

namespace Scheduler

/-! # Definitions -/

/-! ## Data model -/

/-- The macros `NUM_WORKERS` and `QUEUE_SIZE`. -/
structure Config where
  NUM_WORKERS : Nat
  QUEUE_SIZE : Nat

/-- The macro `QUEUE_MASK`, defined as `(QUEUE_SIZE - 1)`. -/
def Config.QUEUE_MASK (c : Config) : Nat := c.QUEUE_SIZE - 1

/-- The values the source file gives the macros. -/
def src : Config := { NUM_WORKERS := 4, QUEUE_SIZE := 65536 }

/-- The array `f` with entry `i` replaced by `v` (an assignment `f[i] = v`). -/
def upd {α : Type} (f : Nat → α) (i : Nat) (v : α) : Nat → α :=
  fun j => if j = i then v else f j

/-- The struct `Task`: a `uint64_t id` and an `int complexity`. -/
structure Task where
  id : Nat
  complexity : Int
  deriving DecidableEq

/-- The struct `WorkerSection`: the two cursors, the processed counter and the ring. -/
structure WorkerSection where
  head : Nat
  total_processed : Nat
  tail : Nat
  ring_buffer : Nat → Task

/-- The shared array `workers_mem` together with the two locals of
`allocator_thread` that live across iterations. -/
structure State where
  workers_mem : Nat → WorkerSection
  task_id : Nat
  start_offset : Nat

/-- A queue after `memset(workers_mem, 0, mem_size)`. -/
def zeroSection : WorkerSection :=
  { head := 0, total_processed := 0, tail := 0, ring_buffer := fun _ => { id := 0, complexity := 0 } }

/-- Zero-initialised queues, `task_id = 0`, `start_offset = 0`. -/
def init : State :=
  { workers_mem := fun _ => zeroSection, task_id := 0, start_offset := 0 }

/-- The value of `unsigned long load = tail - head;` (subtraction modulo `2 ^ 64`). -/
def load (mem : Nat → WorkerSection) (w : Nat) : Nat :=
  ((mem w).tail + 2 ^ 64 - (mem w).head) % 2 ^ 64

/-! ## The allocator -/

/-- The two variables the scan loop updates. -/
structure Scan where
  best_worker : Int
  min_load : Nat

/-- Body of `for (int i = 0; i < NUM_WORKERS; i++)` in `allocator_thread`. -/
def scan_body (c : Config) (mem : Nat → WorkerSection) (start_offset : Nat)
    (acc : Scan) (i : Nat) : Scan :=
  let w := (start_offset + i) % c.NUM_WORKERS
  let head := (mem w).head
  let tail := (mem w).tail
  let load := (tail + 2 ^ 64 - head) % 2 ^ 64
  if load ≥ c.QUEUE_SIZE then acc
  else if load < acc.min_load then { best_worker := (w : Int), min_load := load }
  else acc

/-- The whole scan, from `best_worker = -1`, `min_load = 99999999`. -/
def scan (c : Config) (mem : Nat → WorkerSection) (start_offset : Nat) : Scan :=
  (List.range c.NUM_WORKERS).foldl (scan_body c mem start_offset)
    { best_worker := -1, min_load := 99999999 }

/-- One iteration of `while (system_running)` in `allocator_thread`, with
`rand` the value `rand()` returns. The second component is the enqueue the
iteration performed: the target queue and the task written, if any. -/
def allocator_iteration (c : Config) (rand : Nat) (s : State) :
    State × Option (Nat × Task) :=
  let t : Task := { id := s.task_id, complexity := 1000 + ((rand % 4000 : Nat) : Int) }
  let task_id := (s.task_id + 1) % 2 ^ 64
  let start_offset := (s.start_offset + 1) % c.NUM_WORKERS
  let best_worker := (scan c s.workers_mem start_offset).best_worker
  if best_worker ≠ -1 then
    let target := s.workers_mem best_worker.toNat
    let written : WorkerSection :=
      { target with
        ring_buffer := upd target.ring_buffer (target.tail &&& c.QUEUE_MASK) t }
    let published : WorkerSection := { written with tail := (written.tail + 1) % 2 ^ 64 }
    ({ workers_mem := upd s.workers_mem best_worker.toNat published,
       task_id := task_id, start_offset := start_offset },
     some (best_worker.toNat, t))
  else
    ({ workers_mem := s.workers_mem, task_id := task_id, start_offset := start_offset }, none)

/-! ## The worker -/

/-- One iteration of `while (system_running)` in `worker_thread` for the
worker with index `id`. The second component is the task `t` it read, if
the queue was not empty. -/
def worker_iteration (c : Config) (id : Nat) (s : State) : State × Option Task :=
  let my_mem := s.workers_mem id
  let current_tail := my_mem.tail
  let current_head := my_mem.head
  if current_head < current_tail then
    let t := my_mem.ring_buffer (current_head &&& c.QUEUE_MASK)
    let advanced : WorkerSection := { my_mem with head := (my_mem.head + 1) % 2 ^ 64 }
    let counted : WorkerSection :=
      { advanced with total_processed := (advanced.total_processed + 1) % 2 ^ 64 }
    ({ s with workers_mem := upd s.workers_mem id counted }, some t)
  else
    (s, none)

/-! ## Executions -/

/-- Which thread runs its next loop iteration. -/
inductive Event (c : Config) where
  | alloc (rand : Nat)
  | worker (id : Fin c.NUM_WORKERS)

/-- An execution so far: the memory, and for every queue the tasks the
allocator wrote into it and the tasks its worker read from it, in order. -/
structure Exec where
  st : State
  enq : Nat → List Task
  deq : Nat → List Task

/-- Nothing has run. -/
def Exec.start : Exec := { st := init, enq := fun _ => [], deq := fun _ => [] }

/-- Run one event and record what it enqueued or dequeued. -/
def Exec.step (c : Config) (x : Exec) : Event c → Exec
  | .alloc rand =>
    match allocator_iteration c rand x.st with
    | (s, some (w, t)) => { st := s, enq := upd x.enq w (x.enq w ++ [t]), deq := x.deq }
    | (s, none) => { st := s, enq := x.enq, deq := x.deq }
  | .worker id =>
    match worker_iteration c id.val x.st with
    | (s, some t) => { st := s, enq := x.enq, deq := upd x.deq id.val (x.deq id.val ++ [t]) }
    | (s, none) => { st := s, enq := x.enq, deq := x.deq }

/-- Run a list of events from a given execution. -/
def Exec.run (c : Config) (x : Exec) (tr : List (Event c)) : Exec :=
  tr.foldl (Exec.step c) x

/-! ## Auxiliary definitions for the scan and the two iterations -/

/-- Memory whose queue `w` has `head = 0` and `tail = loads[w]`. -/
def memOfLoads (loads : List Nat) : Nat → WorkerSection :=
  fun w => { zeroSection with tail := loads.getD w 0 }

/-- The queue the scan visits in its `i`-th round: `(start_offset + i) % NUM_WORKERS`. -/
def scanPos (c : Config) (start_offset i : Nat) : Nat := (start_offset + i) % c.NUM_WORKERS

/-- What the scan knows after `m` rounds: either nothing eligible was seen,
or the result is the first eligible queue of least load among those seen. -/
def ScanInv (c : Config) (mem : Nat → WorkerSection) (s m : Nat) (acc : Scan) : Prop :=
  (acc.best_worker = -1 ∧ acc.min_load = 99999999 ∧
      ∀ j, j < m → ¬ load mem (scanPos c s j) < c.QUEUE_SIZE) ∨
  (∃ i, i < m ∧ acc.best_worker = (scanPos c s i : Int) ∧
      acc.min_load = load mem (scanPos c s i) ∧
      load mem (scanPos c s i) < c.QUEUE_SIZE ∧
      (∀ j, j < m → load mem (scanPos c s j) < c.QUEUE_SIZE →
        load mem (scanPos c s i) ≤ load mem (scanPos c s j)) ∧
      (∀ j, j < i → load mem (scanPos c s j) < c.QUEUE_SIZE →
        load mem (scanPos c s i) < load mem (scanPos c s j)))

/-- After `m` rounds the scan has either selected nothing or an eligible queue. -/
def ScanSel (c : Config) (mem : Nat → WorkerSection) (s m : Nat) (acc : Scan) : Prop :=
  acc.best_worker = -1 ∨
  ∃ i, i < m ∧ acc.best_worker = (scanPos c s i : Int) ∧ load mem (scanPos c s i) < c.QUEUE_SIZE

/-- The task an allocator iteration builds: `{ .id = task_id++, .complexity = 1000 + rand() % 4000 }`. -/
def newTask (rand : Nat) (s : State) : Task :=
  { id := s.task_id, complexity := 1000 + ((rand % 4000 : Nat) : Int) }

/-- The queue `q` after `ring_buffer[tail & mask] = t; tail++`. -/
def pushed (mask : Nat) (t : Task) (q : WorkerSection) : WorkerSection :=
  { head := q.head, total_processed := q.total_processed, tail := (q.tail + 1) % 2 ^ 64,
    ring_buffer := upd q.ring_buffer (q.tail &&& mask) t }

/-- The scan result of the iteration that starts in `s`. -/
def bestOf (c : Config) (s : State) : Int :=
  (scan c s.workers_mem ((s.start_offset + 1) % c.NUM_WORKERS)).best_worker

/-- The queue `q` after `head++; total_processed++`. -/
def popped (q : WorkerSection) : WorkerSection :=
  { head := (q.head + 1) % 2 ^ 64, total_processed := (q.total_processed + 1) % 2 ^ 64,
    tail := q.tail, ring_buffer := q.ring_buffer }

/-! ## The queue invariant of the source configuration -/

/-- What holds of queue `w` after any execution of the source configuration:
the cursors count the enqueues (modulo `2 ^ 64`) and the dequeues, at most
`65536` tasks are pending, the dequeued tasks are the first enqueued ones,
and every pending task sits in its slot. -/
structure QInv (x : Exec) (w : Nat) : Prop where
  tail_eq : (x.st.workers_mem w).tail = (x.enq w).length % 2 ^ 64
  head_eq : (x.st.workers_mem w).head = (x.deq w).length
  proc_eq : (x.st.workers_mem w).total_processed = (x.deq w).length
  deq_le : (x.deq w).length ≤ (x.enq w).length
  enq_le : (x.enq w).length ≤ (x.deq w).length + 65536
  deq_lt : (x.deq w).length < 2 ^ 64
  deq_take : x.deq w = (x.enq w).take (x.deq w).length
  ring : ∀ j, (x.deq w).length ≤ j → j < (x.enq w).length →
    (x.enq w)[j]? = some ((x.st.workers_mem w).ring_buffer (j % 65536))

/-! ## An execution that wraps a tail cursor -/

/-- One allocator iteration followed by one iteration of worker 1. -/
def pumpBlock : List (Event src) := [.alloc 0, .worker ⟨1, by decide⟩]

/-- The block `pumpBlock`, `m` times. -/
def pump : Nat → List (Event src)
  | 0 => []
  | m + 1 => pump m ++ pumpBlock

/-- Five events after which queue 1 is empty with both cursors at 1 and the
queues 0, 2 and 3 each hold one task that is never consumed. -/
def warmup : List (Event src) :=
  [.alloc 0, .worker ⟨1, by decide⟩, .alloc 0, .alloc 0, .alloc 0]

/-- Queue 1 is empty with both cursors (and the counter) at `k`; the other
three queues hold one task each. -/
def PumpSt (k : Nat) (s : State) : Prop :=
  (s.workers_mem 1).head = k ∧ (s.workers_mem 1).tail = k ∧
  (s.workers_mem 1).total_processed = k ∧
  ∀ w, w < 4 → w ≠ 1 → (s.workers_mem w).head = 0 ∧ (s.workers_mem w).tail = 1

/-- The execution `warmup`, then `2 ^ 64 - 2` rounds of `pumpBlock`. In its
last state queue 1 is empty with both cursors at `2 ^ 64 - 1`. -/
def brinkTrace : List (Event src) := warmup ++ pump (2 ^ 64 - 2)

/-- The execution `brinkTrace` followed by one more allocator iteration. -/
def wrapTrace : List (Event src) := brinkTrace ++ [.alloc 0]

/-! ## An execution that saturates every queue -/

/-- The allocator runs `n` iterations, no worker runs. -/
def fillTrace : Nat → List (Event src)
  | 0 => []
  | n + 1 => fillTrace n ++ [.alloc 0]

/-- The state after `n` allocator iterations from the start, for `n ≤ 4 * 65536`. -/
def FillSt (n : Nat) (s : State) : Prop :=
  s.start_offset = n % 4 ∧ s.task_id = n ∧
  ∀ w, w < 4 → (s.workers_mem w).head = 0 ∧ (s.workers_mem w).tail = (n + (4 - w) % 4) / 4

/-! ## Task ids -/

/-- Whether the event is an allocator iteration. -/
def Event.isAlloc {c : Config} : Event c → Bool
  | .alloc _ => true
  | .worker _ => false

/-- How many allocator iterations the execution has run, which is how many
times `task_id++` was evaluated. -/
def allocCount {c : Config} (tr : List (Event c)) : Nat := tr.countP Event.isAlloc

/-- The id counter after `a` allocator iterations, and, until it wraps,
the ids in every queue are below it and strictly increasing. -/
def IdInv (a : Nat) (x : Exec) : Prop :=
  x.st.task_id = a % 2 ^ 64 ∧
  (a ≤ 2 ^ 64 → ∀ w, (∀ t, t ∈ x.enq w → t.id < a) ∧
    (x.enq w).Pairwise (fun t u => t.id < u.id))

/-! ## Start-up of the threads -/

/-- Where a worker thread is in `worker_thread`. -/
inductive WorkerPc where
  /-- Before `__sync_fetch_and_add(&workers_ready_count, 1)`. -/
  | entry
  /-- In `while (start_signal == 0) { usleep(1000); }`. -/
  | waiting
  /-- In `while (system_running)`. -/
  | running
  /-- After the loop. -/
  | exited
  deriving DecidableEq

/-- Where the allocator is in `allocator_thread`. -/
inductive AllocPc where
  /-- In `while (workers_ready_count < NUM_WORKERS) { usleep(1000); }`. -/
  | waiting
  /-- In `sleep(1)`, before `start_signal = 1`. -/
  | sleeping
  /-- In `while (system_running)`. -/
  | running
  /-- After the loop. -/
  | exited
  deriving DecidableEq

/-- The whole process: the queues and allocator locals, the three global
flags, and the position of every thread. -/
structure Sys where
  mem : State
  system_running : Int
  start_signal : Int
  workers_ready_count : Int
  worker_pc : Nat → WorkerPc
  alloc_pc : AllocPc

/-- The process when `main` has zeroed the queues and created the threads. -/
def Sys.boot : Sys :=
  { mem := init, system_running := 1, start_signal := 0, workers_ready_count := 0,
    worker_pc := fun _ => WorkerPc.entry, alloc_pc := AllocPc.waiting }

/-- The thread named by the event runs up to its next loop test. -/
def Sys.step (c : Config) (y : Sys) : Event c → Sys
  | .worker id =>
    match y.worker_pc id.val with
    | .entry =>
      { y with
        workers_ready_count := y.workers_ready_count + 1,
        worker_pc := upd y.worker_pc id.val WorkerPc.waiting }
    | .waiting =>
      if y.start_signal = 0 then y
      else { y with worker_pc := upd y.worker_pc id.val WorkerPc.running }
    | .running =>
      if y.system_running ≠ 0 then { y with mem := (worker_iteration c id.val y.mem).1 }
      else { y with worker_pc := upd y.worker_pc id.val WorkerPc.exited }
    | .exited => y
  | .alloc rand =>
    match y.alloc_pc with
    | .waiting =>
      if y.workers_ready_count < (c.NUM_WORKERS : Int) then y
      else { y with alloc_pc := AllocPc.sleeping }
    | .sleeping =>
      { y with
        start_signal := 1,
        mem := { y.mem with task_id := 0, start_offset := 0 },
        alloc_pc := AllocPc.running }
    | .running =>
      if y.system_running ≠ 0 then { y with mem := (allocator_iteration c rand y.mem).1 }
      else { y with alloc_pc := AllocPc.exited }
    | .exited => y

/-- Run a list of events. -/
def Sys.run (c : Config) (y : Sys) (tr : List (Event c)) : Sys :=
  tr.foldl (Sys.step c) y

/-- How many of the workers `0 .. n-1` have passed the ready increment. -/
def pastEntry (pc : Nat → WorkerPc) : Nat → Nat
  | 0 => 0
  | n + 1 => pastEntry pc n + (if pc n = WorkerPc.entry then 0 else 1)

/-- The start-up invariant. -/
structure SysInv (c : Config) (y : Sys) : Prop where
  count_eq : y.workers_ready_count = (pastEntry y.worker_pc c.NUM_WORKERS : Int)
  signal_bit : y.start_signal = 0 ∨ y.start_signal = 1
  before : y.start_signal = 0 →
    (∀ w, (y.mem.workers_mem w).head = 0 ∧ (y.mem.workers_mem w).tail = 0) ∧
    (y.alloc_pc = AllocPc.waiting ∨ y.alloc_pc = AllocPc.sleeping) ∧
    ∀ i, y.worker_pc i = WorkerPc.entry ∨ y.worker_pc i = WorkerPc.waiting
  all_ready : y.alloc_pc ≠ AllocPc.waiting → pastEntry y.worker_pc c.NUM_WORKERS = c.NUM_WORKERS
  after : y.start_signal = 1 → y.alloc_pc ≠ AllocPc.waiting

/-! ## Other configurations -/

/-- A configuration with one queue of capacity 4. -/
def single4 : Config := { NUM_WORKERS := 1, QUEUE_SIZE := 4 }

/-- A configuration with four queues of capacity 10. -/
def four10 : Config := { NUM_WORKERS := 4, QUEUE_SIZE := 10 }

/-- Four allocator iterations of `single4`. -/
def fourEnqueues : List (Event single4) := [.alloc 0, .alloc 0, .alloc 0, .alloc 0]

/-! # Theorems -/

/-! ## Array updates -/

theorem upd_same {α : Type} (i : Nat) (v : α) (f : Nat → α) : upd f i v i = v := by
  simp [upd]

theorem upd_noteq {α : Type} {a a' : Nat} (h : a ≠ a') (v : α) (f : Nat → α) :
    upd f a' v a = f a := by
  simp [upd, h]

/-! ## The scan -/

theorem scan_body_inv (c : Config) (hc : c.QUEUE_SIZE ≤ 99999999)
    (mem : Nat → WorkerSection) (s m : Nat) (acc : Scan)
    (h : ScanInv c mem s m acc) :
    ScanInv c mem s (m + 1) (scan_body c mem s acc m) := by
  have hl : ((mem ((s + m) % c.NUM_WORKERS)).tail + 2 ^ 64
      - (mem ((s + m) % c.NUM_WORKERS)).head) % 2 ^ 64 = load mem (scanPos c s m) := rfl
  unfold scan_body
  simp only [hl]
  by_cases hfull : load mem (scanPos c s m) ≥ c.QUEUE_SIZE
  · rw [if_pos hfull]
    rcases h with ⟨hb, hm, hall⟩ | ⟨i, hi, hb, hm, he, hmin, hfirst⟩
    · left
      refine ⟨hb, hm, ?_⟩
      intro j hj
      rcases Nat.lt_succ_iff_lt_or_eq.mp hj with hj | hj
      · exact hall j hj
      · subst hj; omega
    · right
      refine ⟨i, by omega, hb, hm, he, ?_, hfirst⟩
      intro j hj hej
      rcases Nat.lt_succ_iff_lt_or_eq.mp hj with hj | hj
      · exact hmin j hj hej
      · subst hj; omega
  · rw [if_neg hfull]
    have hel : load mem (scanPos c s m) < c.QUEUE_SIZE := by omega
    by_cases hlt : load mem (scanPos c s m) < acc.min_load
    · rw [if_pos hlt]
      right
      refine ⟨m, by omega, rfl, rfl, hel, ?_, ?_⟩
      · intro j hj hej
        rcases Nat.lt_succ_iff_lt_or_eq.mp hj with hj | hj
        · rcases h with ⟨_, _, hall⟩ | ⟨i, hi, _, hm, _, hmin, _⟩
          · exact absurd hej (hall j hj)
          · have := hmin j hj hej
            omega
        · subst hj; exact le_refl _
      · intro j hj hej
        rcases h with ⟨_, _, hall⟩ | ⟨i, hi, _, hm, _, hmin, _⟩
        · exact absurd hej (hall j hj)
        · have := hmin j hj hej
          omega
    · rw [if_neg hlt]
      rcases h with ⟨_, hm, _⟩ | ⟨i, hi, hb, hm, he, hmin, hfirst⟩
      · omega
      · right
        refine ⟨i, by omega, hb, hm, he, ?_, hfirst⟩
        intro j hj hej
        rcases Nat.lt_succ_iff_lt_or_eq.mp hj with hj | hj
        · exact hmin j hj hej
        · subst hj; omega

theorem scan_fold_inv (c : Config) (hc : c.QUEUE_SIZE ≤ 99999999)
    (mem : Nat → WorkerSection) (s m : Nat) :
    ScanInv c mem s m ((List.range m).foldl (scan_body c mem s)
      { best_worker := -1, min_load := 99999999 }) := by
  induction m with
  | zero =>
    left
    exact ⟨rfl, rfl, fun j hj => absurd hj (Nat.not_lt_zero j)⟩
  | succ m ih =>
    rw [List.range_succ, List.foldl_append]
    exact scan_body_inv c hc mem s m _ ih

theorem scan_inv (c : Config) (hc : c.QUEUE_SIZE ≤ 99999999)
    (mem : Nat → WorkerSection) (s : Nat) :
    ScanInv c mem s c.NUM_WORKERS (scan c mem s) :=
  scan_fold_inv c hc mem s c.NUM_WORKERS

/-- Every queue index below `NUM_WORKERS` is visited in some round. -/
theorem scanPos_surj (c : Config) (s w : Nat) (hw : w < c.NUM_WORKERS) :
    ∃ i, i < c.NUM_WORKERS ∧ scanPos c s i = w := by
  refine ⟨(w + c.NUM_WORKERS - s % c.NUM_WORKERS) % c.NUM_WORKERS, Nat.mod_lt _ (by omega), ?_⟩
  unfold scanPos
  have hs : s % c.NUM_WORKERS < c.NUM_WORKERS := Nat.mod_lt _ (by omega)
  rw [Nat.add_mod_mod, ← Nat.mod_add_mod]
  have : s % c.NUM_WORKERS + (w + c.NUM_WORKERS - s % c.NUM_WORKERS) = w + c.NUM_WORKERS := by
    omega
  rw [this, Nat.add_mod_right, Nat.mod_eq_of_lt hw]

theorem scanPos_lt (c : Config) (s i : Nat) (h : 0 < c.NUM_WORKERS) :
    scanPos c s i < c.NUM_WORKERS := Nat.mod_lt _ h

/-! ## One allocator iteration -/

/-- Every vector of `unsigned long` loads is the load vector of a memory. -/
theorem load_memOfLoads (loads : List Nat) (w : Nat) (h : loads.getD w 0 < 2 ^ 64) :
    load (memOfLoads loads) w = loads.getD w 0 := by
  show (loads.getD w 0 + 2 ^ 64 - 0) % 2 ^ 64 = loads.getD w 0
  omega

theorem alloc_of_none (c : Config) (rand : Nat) (s : State) (h : bestOf c s = -1) :
    allocator_iteration c rand s =
      ({ workers_mem := s.workers_mem, task_id := (s.task_id + 1) % 2 ^ 64,
         start_offset := (s.start_offset + 1) % c.NUM_WORKERS }, none) := by
  unfold bestOf at h
  unfold allocator_iteration
  simp [h]

theorem alloc_of_some (c : Config) (rand : Nat) (s : State) (w : Nat)
    (h : bestOf c s = (w : Int)) :
    allocator_iteration c rand s =
      ({ workers_mem := upd s.workers_mem w
            (pushed c.QUEUE_MASK (newTask rand s) (s.workers_mem w)),
         task_id := (s.task_id + 1) % 2 ^ 64,
         start_offset := (s.start_offset + 1) % c.NUM_WORKERS },
       some (w, newTask rand s)) := by
  unfold bestOf at h
  have hne : (w : Int) ≠ -1 := by omega
  unfold allocator_iteration
  simp only [h, ne_eq, hne, not_false_eq_true, if_true, Int.toNat_ofNat]
  rfl

/-- The two outcomes of the scan, in terms of queue indices. -/
theorem bestOf_cases (c : Config) (hc : c.QUEUE_SIZE ≤ 99999999) (s : State) :
    (bestOf c s = -1 ∧ ∀ w, w < c.NUM_WORKERS → ¬ load s.workers_mem w < c.QUEUE_SIZE) ∨
    (∃ w, w < c.NUM_WORKERS ∧ bestOf c s = (w : Int) ∧ load s.workers_mem w < c.QUEUE_SIZE ∧
      ∀ v, v < c.NUM_WORKERS → load s.workers_mem v < c.QUEUE_SIZE →
        load s.workers_mem w ≤ load s.workers_mem v) := by
  rcases scan_inv c hc s.workers_mem ((s.start_offset + 1) % c.NUM_WORKERS) with
    ⟨hb, _, hall⟩ | ⟨i, hi, hb, _, he, hmin, _⟩
  · left
    refine ⟨hb, ?_⟩
    intro w hw
    obtain ⟨j, hj, hjw⟩ := scanPos_surj c ((s.start_offset + 1) % c.NUM_WORKERS) w hw
    rw [← hjw]
    exact hall j hj
  · right
    refine ⟨_, scanPos_lt c _ i (by omega), hb, he, ?_⟩
    intro v hv hev
    obtain ⟨j, hj, hjv⟩ := scanPos_surj c ((s.start_offset + 1) % c.NUM_WORKERS) v hv
    rw [← hjv] at hev ⊢
    exact hmin j hj hev

/-! ## One worker iteration -/

theorem worker_of_lt (c : Config) (id : Nat) (s : State)
    (h : (s.workers_mem id).head < (s.workers_mem id).tail) :
    worker_iteration c id s =
      ({ workers_mem := upd s.workers_mem id (popped (s.workers_mem id)),
         task_id := s.task_id, start_offset := s.start_offset },
       some ((s.workers_mem id).ring_buffer ((s.workers_mem id).head &&& c.QUEUE_MASK))) := by
  unfold worker_iteration
  simp only [h, if_true]
  rfl

theorem worker_of_not_lt (c : Config) (id : Nat) (s : State)
    (h : ¬ (s.workers_mem id).head < (s.workers_mem id).tail) :
    worker_iteration c id s = (s, none) := by
  unfold worker_iteration
  simp only [h, if_false]

theorem mask_src (x : Nat) : x &&& src.QUEUE_MASK = x % 65536 :=
  Nat.and_pow_two_sub_one_eq_mod x 16

/-! ## One event of an execution -/

theorem step_alloc_none (c : Config) (rand : Nat) (x : Exec) (h : bestOf c x.st = -1) :
    Exec.step c x (.alloc rand) =
      { st := { workers_mem := x.st.workers_mem, task_id := (x.st.task_id + 1) % 2 ^ 64,
                start_offset := (x.st.start_offset + 1) % c.NUM_WORKERS },
        enq := x.enq, deq := x.deq } := by
  simp only [Exec.step, alloc_of_none c rand x.st h]

theorem step_alloc_some (c : Config) (rand : Nat) (x : Exec) (w : Nat)
    (h : bestOf c x.st = (w : Int)) :
    Exec.step c x (.alloc rand) =
      { st := { workers_mem := upd x.st.workers_mem w
                  (pushed c.QUEUE_MASK (newTask rand x.st) (x.st.workers_mem w)),
                task_id := (x.st.task_id + 1) % 2 ^ 64,
                start_offset := (x.st.start_offset + 1) % c.NUM_WORKERS },
        enq := upd x.enq w (x.enq w ++ [newTask rand x.st]), deq := x.deq } := by
  simp only [Exec.step, alloc_of_some c rand x.st w h]

theorem step_worker_lt (c : Config) (id : Fin c.NUM_WORKERS) (x : Exec)
    (h : (x.st.workers_mem id.val).head < (x.st.workers_mem id.val).tail) :
    Exec.step c x (.worker id) =
      { st := { workers_mem := upd x.st.workers_mem id.val
                  (popped (x.st.workers_mem id.val)),
                task_id := x.st.task_id, start_offset := x.st.start_offset },
        enq := x.enq,
        deq := upd x.deq id.val (x.deq id.val ++
          [(x.st.workers_mem id.val).ring_buffer
            ((x.st.workers_mem id.val).head &&& c.QUEUE_MASK)]) } := by
  simp only [Exec.step, worker_of_lt c id.val x.st h]

theorem step_worker_not_lt (c : Config) (id : Fin c.NUM_WORKERS) (x : Exec)
    (h : ¬ (x.st.workers_mem id.val).head < (x.st.workers_mem id.val).tail) :
    Exec.step c x (.worker id) = x := by
  simp only [Exec.step, worker_of_not_lt c id.val x.st h]

theorem run_append (c : Config) (x : Exec) (tr : List (Event c)) (e : Event c) :
    Exec.run c x (tr ++ [e]) = Exec.step c (Exec.run c x tr) e := by
  simp [Exec.run, List.foldl_append]

theorem run_concat (c : Config) (x : Exec) (tr tr2 : List (Event c)) :
    Exec.run c x (tr ++ tr2) = Exec.run c (Exec.run c x tr) tr2 := by
  simp [Exec.run, List.foldl_append]

/-! ## Preservation of the queue invariant -/

theorem qinv_start (w : Nat) : QInv Exec.start w := by
  constructor <;> simp [Exec.start, init, zeroSection]

theorem src_cap : src.QUEUE_SIZE ≤ 99999999 := by decide

theorem qinv_load (x : Exec) (w : Nat) (h : QInv x w) :
    load x.st.workers_mem w = (x.enq w).length - (x.deq w).length := by
  have h1 := h.tail_eq
  have h2 := h.head_eq
  have h3 := h.deq_le
  have h4 := h.enq_le
  have h5 := h.deq_lt
  unfold load
  rw [h1, h2]
  omega

theorem qinv_push (rand : Nat) (x : Exec) (w : Nat) (h : QInv x w)
    (hl : load x.st.workers_mem w < src.QUEUE_SIZE) :
    QInv
      { st := { workers_mem := upd x.st.workers_mem w
                  (pushed src.QUEUE_MASK (newTask rand x.st) (x.st.workers_mem w)),
                task_id := (x.st.task_id + 1) % 2 ^ 64,
                start_offset := (x.st.start_offset + 1) % src.NUM_WORKERS },
        enq := upd x.enq w (x.enq w ++ [newTask rand x.st]), deq := x.deq } w := by
  have hload := qinv_load x w h
  rw [hload] at hl
  have hcap : src.QUEUE_SIZE = 65536 := rfl
  rw [hcap] at hl
  have h1 := h.tail_eq
  have h2 := h.head_eq
  have h3 := h.deq_le
  have h4 := h.enq_le
  have h5 := h.deq_lt
  constructor
  · simp only [upd_same, pushed, List.length_append, List.length_singleton]
    rw [h1]; omega
  · simp only [upd_same, pushed]; exact h2
  · simp only [upd_same, pushed]; exact h.proc_eq
  · simp only [upd_same, List.length_append, List.length_singleton]; omega
  · simp only [upd_same, List.length_append, List.length_singleton]; omega
  · exact h5
  · simp only [upd_same]
    rw [List.take_append_of_le_length h3]
    exact h.deq_take
  · intro j hj hjlt
    simp only [upd_same, List.length_append, List.length_singleton] at hjlt
    have hj2 : (x.deq w).length ≤ j := hj
    simp only [upd_same, pushed, mask_src]
    by_cases hje : j = (x.enq w).length
    · subst hje
      have hidx : (x.enq w).length % 65536 = (x.st.workers_mem w).tail % 65536 := by
        rw [h1]; omega
      rw [hidx, upd_same]
      simp
    · have hjl : j < (x.enq w).length := by omega
      have hidx : j % 65536 ≠ (x.st.workers_mem w).tail % 65536 := by
        rw [h1]; omega
      rw [upd_noteq hidx, List.getElem?_append_left hjl]
      exact h.ring j hj2 hjl

theorem qinv_pop (x : Exec) (w : Nat) (h : QInv x w)
    (hlt : (x.st.workers_mem w).head < (x.st.workers_mem w).tail) :
    QInv
      { st := { workers_mem := upd x.st.workers_mem w
                  (popped (x.st.workers_mem w)),
                task_id := x.st.task_id, start_offset := x.st.start_offset },
        enq := x.enq,
        deq := upd x.deq w (x.deq w ++
          [(x.st.workers_mem w).ring_buffer
            ((x.st.workers_mem w).head &&& src.QUEUE_MASK)]) } w := by
  have h1 := h.tail_eq
  have h2 := h.head_eq
  have h3 := h.deq_le
  have h4 := h.enq_le
  have h5 := h.deq_lt
  have h6 := h.proc_eq
  rw [h1, h2] at hlt
  have hDE : (x.deq w).length < (x.enq w).length := by omega
  have hslot := h.ring (x.deq w).length (le_refl _) hDE
  constructor
  · simp only [upd_same, popped]; exact h1
  · simp only [upd_same, popped, List.length_append, List.length_singleton]
    rw [h2]; omega
  · simp only [upd_same, popped, List.length_append, List.length_singleton]
    rw [h6]; omega
  · simp only [upd_same, List.length_append, List.length_singleton]; omega
  · simp only [upd_same, List.length_append, List.length_singleton]; omega
  · simp only [upd_same, List.length_append, List.length_singleton]; omega
  · simp only [upd_same, List.length_append, List.length_singleton, mask_src]
    rw [List.take_succ, hslot, ← h.deq_take, h2]
    rfl
  · intro j hj hjlt
    simp only [upd_same, List.length_append, List.length_singleton] at hj
    simp only [upd_same, popped]
    exact h.ring j (by omega) hjlt

theorem qinv_congr (x y : Exec) (w : Nat) (hm : y.st.workers_mem w = x.st.workers_mem w)
    (he : y.enq w = x.enq w) (hd : y.deq w = x.deq w) (h : QInv x w) : QInv y w := by
  constructor
  · rw [hm, he]; exact h.tail_eq
  · rw [hm, hd]; exact h.head_eq
  · rw [hm, hd]; exact h.proc_eq
  · rw [he, hd]; exact h.deq_le
  · rw [he, hd]; exact h.enq_le
  · rw [hd]; exact h.deq_lt
  · rw [he, hd]; exact h.deq_take
  · rw [hm, he, hd]; exact h.ring

theorem qinv_step (x : Exec) (e : Event src) (h : ∀ w, QInv x w) :
    ∀ w, QInv (Exec.step src x e) w := by
  intro w
  cases e with
  | alloc rand =>
    rcases bestOf_cases src src_cap x.st with ⟨hb, _⟩ | ⟨v, _, hb, hl, _⟩
    · rw [step_alloc_none src rand x hb]
      exact qinv_congr x _ w rfl rfl rfl (h w)
    · rw [step_alloc_some src rand x v hb]
      by_cases hwv : w = v
      · subst hwv
        exact qinv_push rand x w (h w) hl
      · exact qinv_congr x _ w (upd_noteq hwv _ _)
          (upd_noteq hwv _ _) rfl (h w)
  | worker id =>
    by_cases hlt : (x.st.workers_mem id.val).head < (x.st.workers_mem id.val).tail
    · rw [step_worker_lt src id x hlt]
      by_cases hwv : w = id.val
      · subst hwv
        exact qinv_pop x id.val (h id.val) hlt
      · exact qinv_congr x _ w (upd_noteq hwv _ _) rfl
          (upd_noteq hwv _ _) (h w)
    · rw [step_worker_not_lt src id x hlt]
      exact h w

theorem qinv_run (tr : List (Event src)) (x : Exec) (h : ∀ w, QInv x w) :
    ∀ w, QInv (Exec.run src x tr) w := by
  induction tr generalizing x with
  | nil => exact h
  | cons e tr ih => exact ih (Exec.step src x e) (qinv_step x e h)

theorem qinv_reach (tr : List (Event src)) (w : Nat) :
    QInv (Exec.run src Exec.start tr) w :=
  qinv_run tr Exec.start qinv_start w

/-! ## Reaching the wrap of a tail cursor -/

theorem pump_warmup : PumpSt 1 (Exec.run src Exec.start warmup).st := by
  unfold PumpSt
  decide

theorem pump_best (k : Nat) (s : State) (h : PumpSt k s) :
    bestOf src s = 1 := by
  obtain ⟨h1, h2, _, hr⟩ := h
  have hl1 : load s.workers_mem 1 = 0 := by
    unfold load; rw [h1, h2]; omega
  have hlr : ∀ w, w < 4 → w ≠ 1 → load s.workers_mem w = 1 := by
    intro w hw hw1
    obtain ⟨a, b⟩ := hr w hw hw1
    unfold load; rw [a, b]; norm_num
  rcases bestOf_cases src src_cap s with ⟨_, hall⟩ | ⟨w, hw, hb, _, hmin⟩
  · exact absurd (by rw [hl1]; decide) (hall 1 (by decide))
  · have hle := hmin 1 (by decide) (by rw [hl1]; decide)
    rw [hl1] at hle
    have hw4 : w < 4 := hw
    by_cases hw1 : w = 1
    · rw [hb, hw1]; rfl
    · have := hlr w hw4 hw1
      omega

theorem pump_block (k : Nat) (hk : k + 1 < 2 ^ 64) (x : Exec) (h : PumpSt k x.st) :
    PumpSt (k + 1) (Exec.run src x pumpBlock).st := by
  have hb := pump_best k x.st h
  obtain ⟨h1, h2, h3, hr⟩ := h
  have hrun : Exec.run src x pumpBlock =
      Exec.step src (Exec.step src x (.alloc 0)) (.worker ⟨1, by decide⟩) := rfl
  rw [hrun, step_alloc_some src 0 x 1 hb]
  rw [step_worker_lt src ⟨1, by decide⟩ _ (by
    simp only [upd_same, pushed]
    rw [h1, h2]; omega)]
  refine ⟨?_, ?_, ?_, ?_⟩
  · simp only [upd_same, pushed, popped]
    rw [h1]; omega
  · simp only [upd_same, pushed, popped]
    rw [h2]; omega
  · simp only [upd_same, pushed, popped]
    rw [h3]; omega
  · intro w hw hw1
    simp only [upd_noteq hw1]
    exact hr w hw hw1

theorem pump_run (m : Nat) (hm : 1 + m < 2 ^ 64) :
    PumpSt (1 + m) (Exec.run src Exec.start (warmup ++ pump m)).st := by
  induction m with
  | zero => simpa [pump] using pump_warmup
  | succ m ih =>
    have hp : warmup ++ pump (m + 1) = (warmup ++ pump m) ++ pumpBlock := by
      simp [pump, List.append_assoc]
    rw [hp, run_concat]
    have := pump_block (1 + m) (by omega) _ (ih (by omega))
    rw [show 1 + (m + 1) = 1 + m + 1 by omega]
    exact this

theorem brink_state : PumpSt (2 ^ 64 - 1) (Exec.run src Exec.start brinkTrace).st := by
  have h := pump_run (2 ^ 64 - 2) (by norm_num)
  have e : 1 + (2 ^ 64 - 2) = 2 ^ 64 - 1 := by norm_num
  exact e ▸ h

theorem wrap_step (x : Exec) (h : PumpSt (2 ^ 64 - 1) x.st) :
    ((Exec.step src x (.alloc 0)).st.workers_mem 1).head = 2 ^ 64 - 1 ∧
    ((Exec.step src x (.alloc 0)).st.workers_mem 1).total_processed = 2 ^ 64 - 1 ∧
    ((Exec.step src x (.alloc 0)).st.workers_mem 1).tail = 0 := by
  have hb := pump_best (2 ^ 64 - 1) _ h
  obtain ⟨h1, h2, h3, _⟩ := h
  rw [step_alloc_some src 0 _ 1 hb]
  simp only [upd_same, pushed]
  refine ⟨h1, h3, ?_⟩
  rw [h2]
  norm_num

theorem wrap_state :
    ((Exec.run src Exec.start wrapTrace).st.workers_mem 1).head = 2 ^ 64 - 1 ∧
    ((Exec.run src Exec.start wrapTrace).st.workers_mem 1).total_processed = 2 ^ 64 - 1 ∧
    ((Exec.run src Exec.start wrapTrace).st.workers_mem 1).tail = 0 := by
  have h := wrap_step _ brink_state
  have e : Exec.run src Exec.start wrapTrace =
      Exec.step src (Exec.run src Exec.start brinkTrace) (.alloc 0) := run_append _ _ _ _
  rw [e]
  exact h

/-- The allocator iteration in a state where queue 1 is empty with both
cursors at `2 ^ 64 - 1` and the other queues hold one task each. -/
theorem brink_alloc (s : State) (h : PumpSt (2 ^ 64 - 1) s) :
    ((allocator_iteration src 0 s).2).map Prod.fst = some 1 ∧
    (s.workers_mem 1).tail = 2 ^ 64 - 1 ∧
    ((allocator_iteration src 0 s).1.workers_mem 1).tail = 0 ∧
    ((allocator_iteration src 0 s).1.workers_mem 1).tail ≠ (s.workers_mem 1).tail + 1 := by
  have hb := pump_best (2 ^ 64 - 1) _ h
  obtain ⟨_, h2, _, _⟩ := h
  rw [alloc_of_some src 0 _ 1 hb]
  simp only [upd_same, pushed, Option.map_some']
  rw [h2]
  norm_num

/-! ## Selection without a bound on the capacity -/

theorem scan_fold_sel (c : Config) (mem : Nat → WorkerSection) (s m : Nat) :
    ScanSel c mem s m ((List.range m).foldl (scan_body c mem s)
      { best_worker := -1, min_load := 99999999 }) := by
  induction m with
  | zero => left; rfl
  | succ m ih =>
    rw [List.range_succ, List.foldl_append]
    simp only [List.foldl_cons, List.foldl_nil]
    have hl : ∀ acc : Scan, scan_body c mem s acc m =
        if load mem (scanPos c s m) ≥ c.QUEUE_SIZE then acc
        else if load mem (scanPos c s m) < acc.min_load then
          { best_worker := (scanPos c s m : Int), min_load := load mem (scanPos c s m) }
        else acc := fun _ => rfl
    rw [hl]
    have keep : ScanSel c mem s (m + 1) ((List.range m).foldl (scan_body c mem s)
        { best_worker := -1, min_load := 99999999 }) := by
      rcases ih with h | ⟨i, hi, hb, he⟩
      · left; exact h
      · right; exact ⟨i, by omega, hb, he⟩
    split_ifs with h1 h2
    · exact keep
    · right; exact ⟨m, by omega, rfl, by omega⟩
    · exact keep

theorem bestOf_sel (c : Config) (s : State) :
    bestOf c s = -1 ∨
    ∃ w, w < c.NUM_WORKERS ∧ bestOf c s = (w : Int) ∧ load s.workers_mem w < c.QUEUE_SIZE := by
  rcases scan_fold_sel c s.workers_mem ((s.start_offset + 1) % c.NUM_WORKERS) c.NUM_WORKERS with
    h | ⟨i, hi, hb, he⟩
  · left; exact h
  · right; exact ⟨_, scanPos_lt c _ i (by omega), hb, he⟩

theorem bestOf_full (c : Config) (s : State)
    (h : ∀ w, w < c.NUM_WORKERS → c.QUEUE_SIZE ≤ load s.workers_mem w) : bestOf c s = -1 := by
  rcases bestOf_sel c s with hb | ⟨w, hw, _, he⟩
  · exact hb
  · have := h w hw
    omega

/-! ## Reaching saturation -/

/-- If the queue at the scan start is eligible and no queue has a smaller
load, the scan selects it. -/
theorem bestOf_start (c : Config) (hc : c.QUEUE_SIZE ≤ 99999999) (s : State)
    (hN : 0 < c.NUM_WORKERS)
    (he : load s.workers_mem ((s.start_offset + 1) % c.NUM_WORKERS) < c.QUEUE_SIZE)
    (hmin : ∀ w, w < c.NUM_WORKERS →
      load s.workers_mem ((s.start_offset + 1) % c.NUM_WORKERS) ≤ load s.workers_mem w) :
    bestOf c s = (((s.start_offset + 1) % c.NUM_WORKERS : Nat) : Int) := by
  have h0 : scanPos c ((s.start_offset + 1) % c.NUM_WORKERS) 0
      = (s.start_offset + 1) % c.NUM_WORKERS := by
    unfold scanPos
    rw [Nat.add_zero, Nat.mod_mod]
  rcases scan_inv c hc s.workers_mem ((s.start_offset + 1) % c.NUM_WORKERS) with
    ⟨_, _, hall⟩ | ⟨i, hi, hb, _, _, _, hfirst⟩
  · exact absurd (by rw [h0]; exact he) (hall 0 hN)
  · by_cases hi0 : i = 0
    · subst hi0
      unfold bestOf
      rw [hb, h0]
    · have h1 := hfirst 0 (by omega) (by rw [h0]; exact he)
      rw [h0] at h1
      have h2 := hmin _ (scanPos_lt c ((s.start_offset + 1) % c.NUM_WORKERS) i hN)
      omega

theorem fill_load (n : Nat) (hn : n ≤ 262144) (s : State) (h : FillSt n s) (w : Nat)
    (hw : w < 4) : load s.workers_mem w = (n + (4 - w) % 4) / 4 := by
  obtain ⟨a, b⟩ := h.2.2 w hw
  unfold load
  rw [a, b]
  omega

theorem fill_step (n : Nat) (hn : n < 262144) (x : Exec) (h : FillSt n x.st) :
    FillSt (n + 1) (Exec.step src x (.alloc 0)).st := by
  have hoff := h.1
  have hid := h.2.1
  have hs0 : (x.st.start_offset + 1) % src.NUM_WORKERS = (n + 1) % 4 := by
    rw [hoff]; show (n % 4 + 1) % 4 = (n + 1) % 4; omega
  have hs0lt : (n + 1) % 4 < 4 := Nat.mod_lt _ (by decide)
  have hb : bestOf src x.st = (((n + 1) % 4 : Nat) : Int) := by
    rw [← hs0]
    apply bestOf_start src src_cap x.st (by decide)
    · rw [hs0, fill_load n (by omega) x.st h _ hs0lt]
      show _ < 65536
      omega
    · intro w hw
      have hw4 : w < 4 := hw
      rw [hs0, fill_load n (by omega) x.st h _ hs0lt, fill_load n (by omega) x.st h w hw4]
      omega
  rw [step_alloc_some src 0 x _ hb]
  refine ⟨?_, ?_, ?_⟩
  · exact hs0
  · show (x.st.task_id + 1) % 2 ^ 64 = n + 1
    rw [hid]; omega
  · intro w hw
    by_cases hws : w = (n + 1) % 4
    · obtain ⟨a, b⟩ := h.2.2 w hw
      rw [← hws]
      simp only [upd_same, pushed]
      refine ⟨a, ?_⟩
      rw [b]; omega
    · obtain ⟨a, b⟩ := h.2.2 w hw
      simp only [upd_noteq hws]
      refine ⟨a, ?_⟩
      rw [b]; omega

theorem fill_run (n : Nat) (hn : n ≤ 262144) :
    FillSt n (Exec.run src Exec.start (fillTrace n)).st := by
  induction n with
  | zero =>
    refine ⟨rfl, rfl, ?_⟩
    intro w hw
    refine ⟨rfl, ?_⟩
    show 0 = (0 + (4 - w) % 4) / 4
    omega
  | succ n ih =>
    have hp : fillTrace (n + 1) = fillTrace n ++ [.alloc 0] := rfl
    rw [hp, run_append]
    exact fill_step n (by omega) _ (ih (by omega))

/-- What the allocator and worker 0 do from a state in which all four
queues hold `65536` tasks and `262144` ids have been used. -/
theorem saturated_step (s : State) (h : FillSt 262144 s) :
    (∀ w, w < 4 → load s.workers_mem w = 65536) ∧
    s.task_id = 262144 ∧
    (allocator_iteration src 0 s).2 = none ∧
    (worker_iteration src 0 (allocator_iteration src 0 s).1).2.isSome = true ∧
    (allocator_iteration src 0 (worker_iteration src 0 (allocator_iteration src 0 s).1).1).2
      = some (0, { id := 262145, complexity := 1000 }) := by
  have hl : ∀ w, w < 4 → load s.workers_mem w = 65536 := by
    intro w hw
    rw [fill_load 262144 (le_refl _) s h w hw]
    omega
  have hfull : bestOf src s = -1 := by
    apply bestOf_full
    intro w hw
    rw [hl w hw]
    exact le_refl _
  have hq := h.2.2
  have hid := h.2.1
  obtain ⟨a0, b0⟩ := hq 0 (by decide)
  have b0n : (s.workers_mem 0).tail = 65536 := by rw [b0]
  refine ⟨hl, hid, ?_, ?_, ?_⟩
  · rw [alloc_of_none src 0 s hfull]
  · rw [alloc_of_none src 0 s hfull, worker_of_lt src 0 _ (by
      show (s.workers_mem 0).head < (s.workers_mem 0).tail
      rw [a0, b0n]; decide)]
    rfl
  · rw [alloc_of_none src 0 s hfull, worker_of_lt src 0 _ (by
      show (s.workers_mem 0).head < (s.workers_mem 0).tail
      rw [a0, b0n]; decide)]
    have hb : bestOf src
        { workers_mem := upd s.workers_mem 0 (popped (s.workers_mem 0)),
          task_id := (s.task_id + 1) % 2 ^ 64,
          start_offset := (s.start_offset + 1) % src.NUM_WORKERS } = ((0 : Nat) : Int) := by
      rcases bestOf_cases src src_cap
        { workers_mem := upd s.workers_mem 0 (popped (s.workers_mem 0)),
          task_id := (s.task_id + 1) % 2 ^ 64,
          start_offset := (s.start_offset + 1) % src.NUM_WORKERS } with
        ⟨_, hall⟩ | ⟨w, hw, hb, he, _⟩
      · exfalso
        apply hall 0 (by decide)
        show load (upd s.workers_mem 0 (popped (s.workers_mem 0))) 0 < 65536
        unfold load
        simp only [upd_same, popped]
        rw [a0, b0n]
        decide
      · by_cases hw0 : w = 0
        · rw [hb, hw0]
        · exfalso
          have he2 : load (upd s.workers_mem 0 (popped (s.workers_mem 0))) w
              < 65536 := he
          have : load (upd s.workers_mem 0 (popped (s.workers_mem 0))) w
              = load s.workers_mem w := by
            unfold load
            rw [upd_noteq hw0]
          rw [this, hl w hw] at he2
          omega
    rw [alloc_of_some src 0 _ 0 hb]
    show some (0, newTask 0 _) = _
    unfold newTask
    simp only [hid]
    rfl

/-! ## Task ids are issued in increasing order -/

theorem idinv_start : IdInv 0 Exec.start := by
  refine ⟨rfl, ?_⟩
  intro _ w
  simp [Exec.start]

theorem idinv_alloc (a : Nat) (x : Exec) (rand : Nat) (h : IdInv a x) :
    IdInv (a + 1) (Exec.step src x (.alloc rand)) := by
  obtain ⟨hid, hq⟩ := h
  rcases bestOf_sel src x.st with hb | ⟨v, _, hb, _⟩
  · rw [step_alloc_none src rand x hb]
    refine ⟨?_, ?_⟩
    · show (x.st.task_id + 1) % 2 ^ 64 = (a + 1) % 2 ^ 64
      rw [hid]; omega
    · intro ha w
      obtain ⟨h1, h2⟩ := hq (by omega) w
      exact ⟨fun t ht => Nat.lt_succ_of_lt (h1 t ht), h2⟩
  · rw [step_alloc_some src rand x v hb]
    refine ⟨?_, ?_⟩
    · show (x.st.task_id + 1) % 2 ^ 64 = (a + 1) % 2 ^ 64
      rw [hid]; omega
    · intro ha w
      obtain ⟨h1, h2⟩ := hq (by omega) w
      have hnew : (newTask rand x.st).id = a := by
        show x.st.task_id = a
        rw [hid]; omega
      by_cases hwv : w = v
      · subst hwv
        simp only [upd_same]
        refine ⟨?_, ?_⟩
        · intro t ht
          rcases List.mem_append.mp ht with ht | ht
          · exact Nat.lt_succ_of_lt (h1 t ht)
          · rw [List.mem_singleton.mp ht, hnew]; omega
        · rw [List.pairwise_append]
          refine ⟨h2, List.pairwise_singleton _ _, ?_⟩
          intro t ht u hu
          rw [List.mem_singleton.mp hu, hnew]
          exact h1 t ht
      · simp only [upd_noteq hwv]
        exact ⟨fun t ht => Nat.lt_succ_of_lt (h1 t ht), h2⟩

theorem idinv_worker (a : Nat) (x : Exec) (id : Fin src.NUM_WORKERS) (h : IdInv a x) :
    IdInv a (Exec.step src x (.worker id)) := by
  by_cases hlt : (x.st.workers_mem id.val).head < (x.st.workers_mem id.val).tail
  · rw [step_worker_lt src id x hlt]
    exact h
  · rw [step_worker_not_lt src id x hlt]
    exact h

theorem idinv_reach (tr : List (Event src)) :
    IdInv (allocCount tr) (Exec.run src Exec.start tr) := by
  induction tr using List.reverseRecOn with
  | nil => exact idinv_start
  | append_singleton tr e ih =>
    rw [run_append]
    cases e with
    | alloc rand =>
      have hc : allocCount (tr ++ [Event.alloc rand]) = allocCount tr + 1 := by
        simp [allocCount, List.countP_append, List.countP_singleton, Event.isAlloc]
      rw [hc]
      exact idinv_alloc _ _ rand ih
    | worker id =>
      have hc : allocCount (tr ++ [Event.worker id]) = allocCount tr := by
        simp [allocCount, List.countP_append, List.countP_singleton, Event.isAlloc]
      rw [hc]
      exact idinv_worker _ _ id ih

/-! ## The start-up invariant -/

theorem pastEntry_le (pc : Nat → WorkerPc) (n : Nat) : pastEntry pc n ≤ n := by
  induction n with
  | zero => exact le_refl _
  | succ n ih =>
    unfold pastEntry
    split_ifs <;> omega

theorem pastEntry_full (pc : Nat → WorkerPc) (n : Nat) (h : pastEntry pc n = n) :
    ∀ i, i < n → pc i ≠ WorkerPc.entry := by
  induction n with
  | zero => intro i hi; omega
  | succ n ih =>
    have hle := pastEntry_le pc n
    unfold pastEntry at h
    intro i hi
    split_ifs at h with he
    · omega
    · rcases Nat.lt_succ_iff_lt_or_eq.mp hi with hlt | heq
      · exact ih (by omega) i hlt
      · rw [heq]; exact he

theorem pastEntry_keep (pc : Nat → WorkerPc) (i : Nat) (q : WorkerPc) (n : Nat)
    (h : pc i ≠ WorkerPc.entry) (hq : q ≠ WorkerPc.entry) :
    pastEntry (upd pc i q) n = pastEntry pc n := by
  induction n with
  | zero => rfl
  | succ n ih =>
    unfold pastEntry
    rw [ih]
    by_cases hn : n = i
    · subst hn
      rw [upd_same, if_neg hq, if_neg h]
    · rw [upd_noteq hn]

theorem pastEntry_outside (pc : Nat → WorkerPc) (i : Nat) (q : WorkerPc) (n : Nat)
    (hn : n ≤ i) : pastEntry (upd pc i q) n = pastEntry pc n := by
  induction n with
  | zero => rfl
  | succ n ih =>
    unfold pastEntry
    rw [ih (by omega), upd_noteq (by omega)]

theorem pastEntry_enter (pc : Nat → WorkerPc) (i : Nat) (q : WorkerPc) (n : Nat)
    (hi : i < n) (h : pc i = WorkerPc.entry) (hq : q ≠ WorkerPc.entry) :
    pastEntry (upd pc i q) n = pastEntry pc n + 1 := by
  induction n with
  | zero => omega
  | succ n ih =>
    unfold pastEntry
    by_cases hn : n = i
    · subst hn
      rw [pastEntry_outside pc n q n (le_refl _), upd_same, if_neg hq, if_pos h]
    · rw [ih (by omega), upd_noteq hn]
      omega

theorem sysinv_boot (c : Config) : SysInv c Sys.boot := by
  have hz : ∀ n, pastEntry (fun _ => WorkerPc.entry) n = 0 := by
    intro n
    induction n with
    | zero => rfl
    | succ n ih => unfold pastEntry; rw [ih]; rfl
  constructor
  · show (0 : Int) = ((pastEntry (fun _ => WorkerPc.entry) c.NUM_WORKERS : Nat) : Int)
    rw [hz]; rfl
  · left; rfl
  · intro _
    exact ⟨fun _ => ⟨rfl, rfl⟩, Or.inl rfl, fun _ => Or.inl rfl⟩
  · intro h; exact absurd rfl h
  · intro h; exact absurd h (by decide)

theorem sysinv_worker (c : Config) (y : Sys) (id : Fin c.NUM_WORKERS) (h : SysInv c y) :
    SysInv c (Sys.step c y (.worker id)) := by
  obtain ⟨h1, h2, h3, h4, h5⟩ := h
  cases hpc : y.worker_pc id.val with
  | entry =>
    simp only [Sys.step, hpc]
    have hwait : y.alloc_pc = AllocPc.waiting := by
      by_contra hne
      exact pastEntry_full _ _ (h4 hne) id.val id.isLt hpc
    constructor
    · show y.workers_ready_count + 1 = _
      rw [pastEntry_enter _ _ _ _ id.isLt hpc (by decide), h1]
      push_cast; rfl
    · exact h2
    · intro hs
      obtain ⟨a, b, d⟩ := h3 hs
      refine ⟨a, b, ?_⟩
      intro i
      by_cases hi : i = id.val
      · right; show upd y.worker_pc id.val WorkerPc.waiting i = _
        rw [hi, upd_same]
      · show upd y.worker_pc id.val WorkerPc.waiting i = _ ∨
          upd y.worker_pc id.val WorkerPc.waiting i = _
        rw [upd_noteq hi]; exact d i
    · intro hne; exact absurd hwait hne
    · exact h5
  | waiting =>
    simp only [Sys.step, hpc]
    by_cases hs : y.start_signal = 0
    · rw [if_pos hs]; exact ⟨h1, h2, h3, h4, h5⟩
    · rw [if_neg hs]
      have hk := pastEntry_keep y.worker_pc id.val WorkerPc.running c.NUM_WORKERS
        (by rw [hpc]; decide) (by decide)
      constructor
      · show y.workers_ready_count = _
        rw [h1]; exact congrArg _ hk.symm
      · exact h2
      · intro hs0; exact absurd hs0 hs
      · intro hne; show pastEntry (upd _ _ _) _ = _
        rw [hk]; exact h4 hne
      · exact h5
  | running =>
    simp only [Sys.step, hpc]
    have hs : y.start_signal ≠ 0 := by
      intro hs0
      rcases (h3 hs0).2.2 id.val with d | d <;> rw [hpc] at d <;> exact absurd d (by decide)
    by_cases hr : y.system_running ≠ 0
    · rw [if_pos hr]
      exact ⟨h1, h2, fun hs0 => absurd hs0 hs, h4, h5⟩
    · rw [if_neg hr]
      have hk := pastEntry_keep y.worker_pc id.val WorkerPc.exited c.NUM_WORKERS
        (by rw [hpc]; decide) (by decide)
      constructor
      · show y.workers_ready_count = _
        rw [h1]; exact congrArg _ hk.symm
      · exact h2
      · intro hs0; exact absurd hs0 hs
      · intro hne; show pastEntry (upd _ _ _) _ = _
        rw [hk]; exact h4 hne
      · exact h5
  | exited =>
    simp only [Sys.step, hpc]
    exact ⟨h1, h2, h3, h4, h5⟩

theorem sysinv_alloc (c : Config) (y : Sys) (rand : Nat) (h : SysInv c y) :
    SysInv c (Sys.step c y (.alloc rand)) := by
  obtain ⟨h1, h2, h3, h4, h5⟩ := h
  cases hpc : y.alloc_pc with
  | waiting =>
    simp only [Sys.step, hpc]
    by_cases hlt : y.workers_ready_count < (c.NUM_WORKERS : Int)
    · rw [if_pos hlt]; exact ⟨h1, h2, h3, h4, h5⟩
    · rw [if_neg hlt]
      have hs0 : y.start_signal = 0 := by
        rcases h2 with a | a
        · exact a
        · exact absurd hpc (h5 a)
      constructor
      · exact h1
      · exact h2
      · intro hs
        obtain ⟨a, _, d⟩ := h3 hs
        exact ⟨a, Or.inr rfl, d⟩
      · intro _
        show pastEntry y.worker_pc c.NUM_WORKERS = c.NUM_WORKERS
        have hle := pastEntry_le y.worker_pc c.NUM_WORKERS
        rw [h1] at hlt
        omega
      · intro hs; rw [hs0] at hs; exact absurd hs (by decide)
  | sleeping =>
    simp only [Sys.step, hpc]
    constructor
    · exact h1
    · right; rfl
    · intro hs; exact absurd hs (show ¬ (1 : Int) = 0 by decide)
    · intro _; exact h4 (by rw [hpc]; decide)
    · intro _; show AllocPc.running ≠ AllocPc.waiting; decide
  | running =>
    simp only [Sys.step, hpc]
    have hs : y.start_signal ≠ 0 := by
      intro hs0
      rcases (h3 hs0).2.1 with d | d <;> rw [hpc] at d <;> exact absurd d (by decide)
    by_cases hr : y.system_running ≠ 0
    · rw [if_pos hr]
      exact ⟨h1, h2, fun hs0 => absurd hs0 hs, fun _ => h4 (by rw [hpc]; decide),
        fun _ => (show AllocPc.running ≠ AllocPc.waiting by decide)⟩
    · rw [if_neg hr]
      exact ⟨h1, h2, fun hs0 => absurd hs0 hs, fun _ => h4 (by rw [hpc]; decide),
        fun _ => (show AllocPc.exited ≠ AllocPc.waiting by decide)⟩
  | exited =>
    simp only [Sys.step, hpc]
    exact ⟨h1, h2, h3, h4, h5⟩

theorem sysinv_run (c : Config) (tr : List (Event c)) (y : Sys) (h : SysInv c y) :
    SysInv c (Sys.run c y tr) := by
  induction tr generalizing y with
  | nil => exact h
  | cons e tr ih =>
    apply ih
    cases e with
    | alloc rand => exact sysinv_alloc c y rand h
    | worker id => exact sysinv_worker c y id h

/-! ## Outputs of the two iterations -/

theorem mask_pow (c : Config) (k : Nat) (hk : c.QUEUE_SIZE = 2 ^ k) (x : Nat) :
    x &&& c.QUEUE_MASK = x % c.QUEUE_SIZE := by
  unfold Config.QUEUE_MASK
  rw [hk]
  exact Nat.and_pow_two_sub_one_eq_mod x k

/-- An iteration that enqueues wrote the task it built into the queue the
scan selected, and that queue was eligible. -/
theorem alloc_out (c : Config) (rand : Nat) (s : State) (w : Nat) (t : Task)
    (h : (allocator_iteration c rand s).2 = some (w, t)) :
    bestOf c s = (w : Int) ∧ t = newTask rand s ∧ load s.workers_mem w < c.QUEUE_SIZE := by
  rcases bestOf_sel c s with hb | ⟨v, _, hb, he⟩
  · rw [alloc_of_none c rand s hb] at h
    exact absurd h (by simp)
  · rw [alloc_of_some c rand s v hb] at h
    have hp : (v, newTask rand s) = (w, t) := Option.some.inj h
    have hv : v = w := congrArg Prod.fst hp
    have ht : newTask rand s = t := congrArg Prod.snd hp
    subst hv
    exact ⟨hb, ht.symm, he⟩

/-! ## The claims -/

/-- C1, counterexample: the execution `wrapTrace` starts from the
zero-initialised queues and ends in a state where queue 1 has
`head = 2 ^ 64 - 1` and `tail = 0`, so `head ≤ tail` does not hold there. -/
theorem capacity_invariant_counterexample :
    ¬ ((Exec.run src Exec.start wrapTrace).st.workers_mem 1).head
        ≤ ((Exec.run src Exec.start wrapTrace).st.workers_mem 1).tail := by
  obtain ⟨h1, _, h3⟩ := wrap_state
  rw [h1, h3]
  norm_num

/-- C1, amended: after every execution from the zero-initialised queues,
every queue has `(tail - head) mod 2 ^ 64 ≤ QUEUE_SIZE`; and as long as fewer
than `2 ^ 64` tasks were enqueued into the queue (its `tail` has not
wrapped), `head ≤ tail` and `tail - head ≤ QUEUE_SIZE`. -/
theorem capacity_invariant (tr : List (Event src)) (w : Nat) :
    load (Exec.run src Exec.start tr).st.workers_mem w ≤ src.QUEUE_SIZE ∧
    (((Exec.run src Exec.start tr).enq w).length < 2 ^ 64 →
      ((Exec.run src Exec.start tr).st.workers_mem w).head
        ≤ ((Exec.run src Exec.start tr).st.workers_mem w).tail ∧
      ((Exec.run src Exec.start tr).st.workers_mem w).tail
        - ((Exec.run src Exec.start tr).st.workers_mem w).head ≤ src.QUEUE_SIZE) := by
  have h := qinv_reach tr w
  have hl := qinv_load _ w h
  have h1 := h.tail_eq
  have h2 := h.head_eq
  have h3 := h.deq_le
  have h4 := h.enq_le
  have hcap : src.QUEUE_SIZE = 65536 := rfl
  refine ⟨?_, ?_⟩
  · rw [hl, hcap]; omega
  · intro hlt
    rw [h1, h2, hcap]
    omega

/-- C1, amended, at an execution of two iterations. -/
theorem capacity_invariant_witness :
    ((Exec.run src Exec.start [.alloc 7, .alloc 9]).enq 1).length < 2 ^ 64 ∧
    ((Exec.run src Exec.start [.alloc 7, .alloc 9]).st.workers_mem 1).head
      ≤ ((Exec.run src Exec.start [.alloc 7, .alloc 9]).st.workers_mem 1).tail :=
  ⟨by decide, ((capacity_invariant [.alloc 7, .alloc 9] 1).2 (by decide)).1⟩

/-- C2: after every execution from the zero-initialised state, the tasks
the worker of queue `w` has dequeued are exactly the first ones the
allocator enqueued into `w`, as many as were dequeued and in the same
order; and as long as the id counter has not wrapped (at most `2 ^ 64`
allocator iterations), the ids enqueued into `w`, hence the ids dequeued
from it, are strictly increasing. -/
theorem fifo (tr : List (Event src)) (w : Nat) :
    (Exec.run src Exec.start tr).deq w
      = ((Exec.run src Exec.start tr).enq w).take ((Exec.run src Exec.start tr).deq w).length ∧
    ((Exec.run src Exec.start tr).deq w).length ≤ ((Exec.run src Exec.start tr).enq w).length ∧
    (allocCount tr ≤ 2 ^ 64 →
      ((Exec.run src Exec.start tr).enq w).Pairwise (fun t u => t.id < u.id) ∧
      ((Exec.run src Exec.start tr).deq w).Pairwise (fun t u => t.id < u.id)) := by
  have h := qinv_reach tr w
  refine ⟨h.deq_take, h.deq_le, ?_⟩
  intro ha
  have hp := ((idinv_reach tr).2 ha w).2
  refine ⟨hp, ?_⟩
  rw [h.deq_take]
  exact List.Pairwise.sublist (List.take_sublist _ _) hp

/-- C2 at an execution in which queue 1 receives and hands over two tasks. -/
theorem fifo_witness :
    allocCount ([.alloc 7, .worker ⟨1, by decide⟩, .alloc 9, .alloc 1, .alloc 2, .alloc 3,
      .alloc 4, .worker ⟨1, by decide⟩] : List (Event src)) ≤ 2 ^ 64 ∧
    ((Exec.run src Exec.start [.alloc 7, .worker ⟨1, by decide⟩, .alloc 9, .alloc 1, .alloc 2,
      .alloc 3, .alloc 4, .worker ⟨1, by decide⟩]).deq 1).Pairwise (fun t u => t.id < u.id) :=
  ⟨by decide, ((fifo _ 1).2.2 (by decide)).2⟩

/-- C3: for every capacity up to the initial `min_load = 99999999` (the
source has `65536`), every memory and every scan start `s`, the scan leaves
`best_worker = -1` exactly when no queue has `load < QUEUE_SIZE`, and
otherwise leaves the queue visited in round `i` of the order
`s, s+1, ..., s+N-1 (mod N)`, where that queue is eligible, no eligible queue
has a smaller load, and every eligible queue visited before round `i` has a
strictly larger load. With capacity 10, loads `[2,0,3,1]` and start 1 give
index 1, and loads `[1,1,2,1]` and start 2 give index 3. -/
theorem least_load_selection :
    (∀ c : Config, c.QUEUE_SIZE ≤ 99999999 → ∀ (mem : Nat → WorkerSection) (s : Nat),
      ((scan c mem s).best_worker = -1 ↔
        ∀ w, w < c.NUM_WORKERS → ¬ load mem w < c.QUEUE_SIZE) ∧
      ((scan c mem s).best_worker ≠ -1 →
        ∃ i, i < c.NUM_WORKERS ∧
          (scan c mem s).best_worker = (((s + i) % c.NUM_WORKERS : Nat) : Int) ∧
          load mem ((s + i) % c.NUM_WORKERS) < c.QUEUE_SIZE ∧
          (∀ w, w < c.NUM_WORKERS → load mem w < c.QUEUE_SIZE →
            load mem ((s + i) % c.NUM_WORKERS) ≤ load mem w) ∧
          (∀ j, j < i → load mem ((s + j) % c.NUM_WORKERS) < c.QUEUE_SIZE →
            load mem ((s + i) % c.NUM_WORKERS) < load mem ((s + j) % c.NUM_WORKERS)))) ∧
    (scan four10 (memOfLoads [2, 0, 3, 1]) 1).best_worker = 1 ∧
    (scan four10 (memOfLoads [1, 1, 2, 1]) 2).best_worker = 3 := by
  refine ⟨?_, by decide, by decide⟩
  intro c hc mem s
  rcases scan_inv c hc mem s with ⟨hb, _, hall⟩ | ⟨i, hi, hb, _, he, hmin, hfirst⟩
  · refine ⟨⟨fun _ => ?_, fun _ => hb⟩, fun hne => absurd hb hne⟩
    intro w hw
    obtain ⟨j, hj, hjw⟩ := scanPos_surj c s w hw
    rw [← hjw]
    exact hall j hj
  · have hlt := scanPos_lt c s i (by omega)
    have hne : (scan c mem s).best_worker ≠ -1 := by rw [hb]; omega
    refine ⟨⟨fun h => absurd h hne, fun h => absurd he (h _ hlt)⟩, fun _ => ?_⟩
    refine ⟨i, hi, hb, he, ?_, hfirst⟩
    intro w hw hew
    obtain ⟨j, hj, hjw⟩ := scanPos_surj c s w hw
    rw [← hjw] at hew ⊢
    exact hmin j hj hew

/-- C3 at the source configuration, with queue 0 full and start 3. -/
theorem least_load_selection_witness :
    src.QUEUE_SIZE ≤ 99999999 ∧
    ((scan src (memOfLoads [65536, 5, 5, 7]) 3).best_worker = -1 ↔
      ∀ w, w < src.NUM_WORKERS → ¬ load (memOfLoads [65536, 5, 5, 7]) w < src.QUEUE_SIZE) :=
  ⟨by decide, (least_load_selection.1 src (by decide) (memOfLoads [65536, 5, 5, 7]) 3).1⟩

/-- C4, counterexample: after `262144` allocator iterations from the start
all four queues hold `65536` tasks; the next iteration builds the task with
id `262144` and enqueues nothing; worker 0 then dequeues one task; and the
iteration after that enqueues into queue 0 a task with id `262145`, not
`262144`. -/
theorem backpressure_counterexample :
    (∀ w, w < 4 → load (Exec.run src Exec.start (fillTrace 262144)).st.workers_mem w = 65536) ∧
    (Exec.run src Exec.start (fillTrace 262144)).st.task_id = 262144 ∧
    (allocator_iteration src 0 (Exec.run src Exec.start (fillTrace 262144)).st).2 = none ∧
    (worker_iteration src 0
      (allocator_iteration src 0 (Exec.run src Exec.start (fillTrace 262144)).st).1).2.isSome
        = true ∧
    (allocator_iteration src 0 (worker_iteration src 0
      (allocator_iteration src 0 (Exec.run src Exec.start (fillTrace 262144)).st).1).1).2
        = some (0, { id := 262145, complexity := 1000 }) :=
  saturated_step _ (fill_run 262144 (le_refl _))

/-- C4, amended: an allocator iteration in which every queue has
`load ≥ QUEUE_SIZE` enqueues nothing and leaves every queue as it was, but
still advances the id counter; so whatever a following iteration enqueues
(workers do not touch the counter) carries the id `task_id + 1` modulo
`2 ^ 64`, and the task built in the saturated iteration is discarded. -/
theorem saturation_discards_task (c : Config) (rand : Nat) (s : State)
    (h : ∀ w, w < c.NUM_WORKERS → c.QUEUE_SIZE ≤ load s.workers_mem w) :
    allocator_iteration c rand s =
      ({ workers_mem := s.workers_mem, task_id := (s.task_id + 1) % 2 ^ 64,
         start_offset := (s.start_offset + 1) % c.NUM_WORKERS }, none) ∧
    ∀ (s2 : State) (rand2 w : Nat) (t : Task),
      s2.task_id = (allocator_iteration c rand s).1.task_id →
      (allocator_iteration c rand2 s2).2 = some (w, t) →
      t.id = (s.task_id + 1) % 2 ^ 64 := by
  have hnone := alloc_of_none c rand s (bestOf_full c s h)
  refine ⟨hnone, ?_⟩
  intro s2 rand2 w t hid hout
  rw [hnone] at hid
  rw [(alloc_out c rand2 s2 w t hout).2.1]
  exact hid

/-- C4, amended, at the source configuration with four full queues. -/
theorem saturation_discards_task_witness :
    (∀ w, w < src.NUM_WORKERS →
      src.QUEUE_SIZE ≤ load (memOfLoads [65536, 65536, 65536, 65536]) w) ∧
    (allocator_iteration src 0
      { workers_mem := memOfLoads [65536, 65536, 65536, 65536], task_id := 9,
        start_offset := 0 }).2 = none :=
  ⟨by decide,
   congrArg Prod.snd (saturation_discards_task src 0
      { workers_mem := memOfLoads [65536, 65536, 65536, 65536], task_id := 9,
        start_offset := 0 } (by decide)).1⟩

/-- C5: in every state, an allocator iteration never enqueues into a queue
whose load `tail - head` is at least `QUEUE_SIZE`, and leaves that queue
(cursors, counter and every slot) as it was. With one queue of capacity 4
from `head = 0, tail = 0`: four iterations enqueue the ids 0 to 3 and `tail`
is 4; a fifth enqueues nothing and `tail` stays 4; after one worker
iteration `head` is 1; the next allocator iteration enqueues and `tail` is 5. -/
theorem full_queue_rejection :
    (∀ (c : Config) (rand : Nat) (s : State) (w : Nat),
      c.QUEUE_SIZE ≤ load s.workers_mem w →
      (∀ t, (allocator_iteration c rand s).2 ≠ some (w, t)) ∧
      (allocator_iteration c rand s).1.workers_mem w = s.workers_mem w) ∧
    ((Exec.run single4 Exec.start fourEnqueues).enq 0).map Task.id = [0, 1, 2, 3] ∧
    ((Exec.run single4 Exec.start fourEnqueues).st.workers_mem 0).tail = 4 ∧
    (allocator_iteration single4 0 (Exec.run single4 Exec.start fourEnqueues).st).2 = none ∧
    ((Exec.run single4 Exec.start (fourEnqueues ++ [.alloc 0])).st.workers_mem 0).tail = 4 ∧
    ((Exec.run single4 Exec.start
      (fourEnqueues ++ [.alloc 0, .worker ⟨0, by decide⟩])).st.workers_mem 0).head = 1 ∧
    ((allocator_iteration single4 0 (Exec.run single4 Exec.start
      (fourEnqueues ++ [.alloc 0, .worker ⟨0, by decide⟩])).st).2).isSome = true ∧
    ((Exec.run single4 Exec.start
      (fourEnqueues ++ [.alloc 0, .worker ⟨0, by decide⟩, .alloc 0])).st.workers_mem 0).tail
        = 5 := by
  refine ⟨?_, by decide, by decide, by decide, by decide, by decide, by decide, by decide⟩
  intro c rand s w hfull
  rcases bestOf_sel c s with hb | ⟨v, _, hb, he⟩
  · rw [alloc_of_none c rand s hb]
    exact ⟨fun t => by simp, rfl⟩
  · have hvw : w ≠ v := by
      intro hwv
      rw [hwv] at hfull
      omega
    rw [alloc_of_some c rand s v hb]
    refine ⟨fun t ht => ?_, upd_noteq hvw _ _⟩
    have hp : (v, newTask rand s) = (w, t) := Option.some.inj ht
    exact hvw (congrArg Prod.fst hp).symm

/-- C5 at the source configuration, with queue 0 full. -/
theorem full_queue_rejection_witness :
    src.QUEUE_SIZE ≤ load (memOfLoads [65536, 5, 5, 7]) 0 ∧
    (allocator_iteration src 0
      { workers_mem := memOfLoads [65536, 5, 5, 7], task_id := 0, start_offset := 3 }).1.workers_mem 0
      = memOfLoads [65536, 5, 5, 7] 0 :=
  ⟨by decide,
   (full_queue_rejection.1 src 0
      { workers_mem := memOfLoads [65536, 5, 5, 7], task_id := 0, start_offset := 3 } 0
      (by decide)).2⟩

/-- C6, counterexample: `brinkTrace` starts from the zero-initialised queues
and ends in a state where queue 1 has `tail = 2 ^ 64 - 1`; the allocator
iteration run there selects queue 1, and afterwards `tail` of queue 1 is `0`,
which is not the old `tail` plus one. -/
theorem enqueue_tail_counterexample :
    ((allocator_iteration src 0 (Exec.run src Exec.start brinkTrace).st).2).map Prod.fst
      = some 1 ∧
    ((Exec.run src Exec.start brinkTrace).st.workers_mem 1).tail = 2 ^ 64 - 1 ∧
    ((allocator_iteration src 0 (Exec.run src Exec.start brinkTrace).st).1.workers_mem 1).tail
      = 0 ∧
    ((allocator_iteration src 0 (Exec.run src Exec.start brinkTrace).st).1.workers_mem 1).tail
      ≠ ((Exec.run src Exec.start brinkTrace).st.workers_mem 1).tail + 1 :=
  brink_alloc _ brink_state

/-- C6, amended: when an allocator iteration enqueues task `t` into queue
`w` (the scan selected `w`, whose load is below `QUEUE_SIZE`, a power of
two), then afterwards the slot of `w` at index `old tail mod QUEUE_SIZE`,
which is the index `tail & QUEUE_MASK` the code uses, holds `t`; `w.tail` is
`(old tail + 1) mod 2 ^ 64`, that is `old tail + 1` unless
`old tail = 2 ^ 64 - 1`; and `w.head`, `w.total_processed`, every other slot
of `w` and every other queue are as before. -/
theorem enqueue_postcondition (c : Config) (k : Nat) (hk : c.QUEUE_SIZE = 2 ^ k)
    (rand : Nat) (s : State) (w : Nat) (t : Task)
    (h : (allocator_iteration c rand s).2 = some (w, t)) :
    load s.workers_mem w < c.QUEUE_SIZE ∧
    t = { id := s.task_id, complexity := 1000 + ((rand % 4000 : Nat) : Int) } ∧
    (s.workers_mem w).tail &&& c.QUEUE_MASK = (s.workers_mem w).tail % c.QUEUE_SIZE ∧
    ((allocator_iteration c rand s).1.workers_mem w).ring_buffer
      ((s.workers_mem w).tail % c.QUEUE_SIZE) = t ∧
    ((allocator_iteration c rand s).1.workers_mem w).tail
      = ((s.workers_mem w).tail + 1) % 2 ^ 64 ∧
    ((s.workers_mem w).tail + 1 < 2 ^ 64 →
      ((allocator_iteration c rand s).1.workers_mem w).tail = (s.workers_mem w).tail + 1) ∧
    ((allocator_iteration c rand s).1.workers_mem w).head = (s.workers_mem w).head ∧
    ((allocator_iteration c rand s).1.workers_mem w).total_processed
      = (s.workers_mem w).total_processed ∧
    (∀ j, j ≠ (s.workers_mem w).tail % c.QUEUE_SIZE →
      ((allocator_iteration c rand s).1.workers_mem w).ring_buffer j
        = (s.workers_mem w).ring_buffer j) ∧
    (∀ v, v ≠ w → (allocator_iteration c rand s).1.workers_mem v = s.workers_mem v) := by
  obtain ⟨hb, ht, he⟩ := alloc_out c rand s w t h
  have hm := mask_pow c k hk (s.workers_mem w).tail
  rw [alloc_of_some c rand s w hb]
  simp only [upd_same, pushed, hm]
  refine ⟨he, ht, trivial, ?_, trivial, ?_, trivial, trivial, ?_, ?_⟩
  · exact ht.symm
  · intro hlt
    exact Nat.mod_eq_of_lt hlt
  · intro j hj
    exact upd_noteq hj _ _
  · intro v hv
    exact upd_noteq hv _ _

/-- C6, amended, at the first allocator iteration of the source configuration. -/
theorem enqueue_postcondition_witness :
    src.QUEUE_SIZE = 2 ^ 16 ∧
    (allocator_iteration src 5 init).2 = some (1, { id := 0, complexity := 1005 }) ∧
    ((allocator_iteration src 5 init).1.workers_mem 1).tail = ((init.workers_mem 1).tail + 1) % 2 ^ 64 :=
  ⟨by decide, by decide,
   (enqueue_postcondition src 16 (by decide) 5 init 1 { id := 0, complexity := 1005 }
      (by decide)).2.2.2.2.1⟩

/-- C7: for a power-of-two `QUEUE_SIZE` and a queue whose `tail` is an
`unsigned long` value, a worker iteration with `head < tail` obtains the task
in slot `head mod QUEUE_SIZE`, makes `head` one larger and leaves `tail`, all
slots and every other queue unchanged (it also counts the task in
`total_processed`); a worker iteration with `head ≥ tail` obtains no task and
changes nothing at all. -/
theorem dequeue_contract (c : Config) (k : Nat) (hk : c.QUEUE_SIZE = 2 ^ k)
    (id : Nat) (s : State) (hty : (s.workers_mem id).tail < 2 ^ 64) :
    ((s.workers_mem id).head < (s.workers_mem id).tail →
      (worker_iteration c id s).2
        = some ((s.workers_mem id).ring_buffer ((s.workers_mem id).head % c.QUEUE_SIZE)) ∧
      ((worker_iteration c id s).1.workers_mem id).head = (s.workers_mem id).head + 1 ∧
      ((worker_iteration c id s).1.workers_mem id).tail = (s.workers_mem id).tail ∧
      ((worker_iteration c id s).1.workers_mem id).ring_buffer = (s.workers_mem id).ring_buffer ∧
      ((worker_iteration c id s).1.workers_mem id).total_processed
        = ((s.workers_mem id).total_processed + 1) % 2 ^ 64 ∧
      (∀ v, v ≠ id → (worker_iteration c id s).1.workers_mem v = s.workers_mem v)) ∧
    (¬ (s.workers_mem id).head < (s.workers_mem id).tail →
      worker_iteration c id s = (s, none)) := by
  refine ⟨?_, worker_of_not_lt c id s⟩
  intro hlt
  rw [worker_of_lt c id s hlt]
  simp only [upd_same, popped, mask_pow c k hk]
  refine ⟨trivial, ?_, trivial, trivial, trivial, ?_⟩
  · exact Nat.mod_eq_of_lt (by omega)
  · intro v hv
    exact upd_noteq hv _ _

/-- C7 at the source configuration, for worker 1 after one allocator iteration. -/
theorem dequeue_contract_witness :
    src.QUEUE_SIZE = 2 ^ 16 ∧
    ((allocator_iteration src 5 init).1.workers_mem 1).tail < 2 ^ 64 ∧
    ((allocator_iteration src 5 init).1.workers_mem 1).head
      < ((allocator_iteration src 5 init).1.workers_mem 1).tail ∧
    (worker_iteration src 1 (allocator_iteration src 5 init).1).2
      = some (((allocator_iteration src 5 init).1.workers_mem 1).ring_buffer
          (((allocator_iteration src 5 init).1.workers_mem 1).head % src.QUEUE_SIZE)) :=
  ⟨by decide, by decide, by decide,
   ((dequeue_contract src 16 (by decide) 1 (allocator_iteration src 5 init).1 (by decide)).1
      (by decide)).1⟩

/-- C9: in every state the process reaches from `Sys.boot` (workers
incrementing `workers_ready_count` once each, the allocator waiting for all
of them, then setting `start_signal`, then loop iterations), a queue with a
non-zero `tail` or `head` implies `start_signal = 1`, and `start_signal = 1`
implies `workers_ready_count = NUM_WORKERS`. -/
theorem start_gating (c : Config) (tr : List (Event c)) :
    (∀ w, ((Sys.run c Sys.boot tr).mem.workers_mem w).tail ≠ 0 ∨
          ((Sys.run c Sys.boot tr).mem.workers_mem w).head ≠ 0 →
        (Sys.run c Sys.boot tr).start_signal = 1) ∧
    ((Sys.run c Sys.boot tr).start_signal = 1 →
      (Sys.run c Sys.boot tr).workers_ready_count = (c.NUM_WORKERS : Int)) := by
  have h := sysinv_run c tr Sys.boot (sysinv_boot c)
  refine ⟨?_, ?_⟩
  · intro w hw
    rcases h.signal_bit with h0 | h1
    · obtain ⟨a, b⟩ := (h.before h0).1 w
      rcases hw with hw | hw
      · exact absurd b hw
      · exact absurd a hw
    · exact h1
  · intro hs
    rw [h.count_eq, h.all_ready (h.after hs)]

/-- C9 at an execution of the source configuration in which all four
workers report, the allocator starts the system and enqueues one task. -/
theorem start_gating_witness :
    (Sys.run src Sys.boot [.worker ⟨0, by decide⟩, .worker ⟨1, by decide⟩,
      .worker ⟨2, by decide⟩, .worker ⟨3, by decide⟩, .alloc 0, .alloc 0, .alloc 0]).start_signal
        = 1 ∧
    (Sys.run src Sys.boot [.worker ⟨0, by decide⟩, .worker ⟨1, by decide⟩,
      .worker ⟨2, by decide⟩, .worker ⟨3, by decide⟩, .alloc 0, .alloc 0, .alloc 0]).workers_ready_count
        = 4 :=
  ⟨by decide, (start_gating src _).2 (by decide)⟩

/-- C10, counterexample: in the state `wrapTrace` reaches from the
zero-initialised queues, queue 1 has `total_processed = 2 ^ 64 - 1` and
`tail = 0`, so `total_processed ≤ tail` does not hold there. -/
theorem processed_count_counterexample :
    ¬ ((Exec.run src Exec.start wrapTrace).st.workers_mem 1).total_processed
        ≤ ((Exec.run src Exec.start wrapTrace).st.workers_mem 1).tail := by
  obtain ⟨_, h2, h3⟩ := wrap_state
  rw [h2, h3]
  norm_num

/-- C10, amended: after every execution of complete iterations from the
zero-initialised queues, each queue's `total_processed` equals its `head`
and the number of tasks dequeued from it, and is at most the number of tasks
enqueued into it; it is at most `tail` as long as fewer than `2 ^ 64` tasks
were enqueued into the queue (its `tail` has not wrapped). -/
theorem processed_count (tr : List (Event src)) (w : Nat) :
    ((Exec.run src Exec.start tr).st.workers_mem w).total_processed
      = ((Exec.run src Exec.start tr).st.workers_mem w).head ∧
    ((Exec.run src Exec.start tr).st.workers_mem w).total_processed
      = ((Exec.run src Exec.start tr).deq w).length ∧
    ((Exec.run src Exec.start tr).st.workers_mem w).total_processed
      ≤ ((Exec.run src Exec.start tr).enq w).length ∧
    (((Exec.run src Exec.start tr).enq w).length < 2 ^ 64 →
      ((Exec.run src Exec.start tr).st.workers_mem w).total_processed
        ≤ ((Exec.run src Exec.start tr).st.workers_mem w).tail) := by
  have h := qinv_reach tr w
  have h1 := h.tail_eq
  have h2 := h.head_eq
  have h3 := h.deq_le
  have h6 := h.proc_eq
  refine ⟨by rw [h6, h2], h6, by rw [h6]; exact h3, ?_⟩
  intro hlt
  rw [h6, h1]
  omega

/-- C10, amended, at an execution in which worker 1 processes one task. -/
theorem processed_count_witness :
    ((Exec.run src Exec.start [.alloc 7, .worker ⟨1, by decide⟩]).enq 1).length < 2 ^ 64 ∧
    ((Exec.run src Exec.start [.alloc 7, .worker ⟨1, by decide⟩]).st.workers_mem 1).total_processed
      ≤ ((Exec.run src Exec.start [.alloc 7, .worker ⟨1, by decide⟩]).st.workers_mem 1).tail :=
  ⟨by decide, (processed_count [.alloc 7, .worker ⟨1, by decide⟩] 1).2.2.2 (by decide)⟩

end Scheduler
